import Mathlib

/-!
Verification development for the tile-generation pipeline of the
`pm25-react` repository, centred on `src/chunk_reproject_3857_tiles.py`
(function `chunk_reproject_to_3857_png`) together with the CRS check of
`src/globio_lu_to_png.py` (function `reproject_to_world_square`).

The Python source is shallowly embedded: machine floats carrying exact
decimal constants are modelled as rationals, numpy's element-wise
classification is modelled per pixel, the Python dict holding the tile
manifest is modelled as an insertion-ordered association list with
first-occurrence replacement, and the file system is modelled as the list
of tile image file names present plus the manifest document.
-/

/-! ### Colors and the hex palette (`hex_to_rgb`, lines 15-18, 111-132) -/

/-- An RGB triple, each channel a byte value. -/
abbrev Color := Nat × Nat × Nat

/-- Value of one hexadecimal digit character, as `int(h, 16)` reads it. -/
def hexVal (c : Char) : Nat :=
  if '0' ≤ c ∧ c ≤ '9' then c.toNat - '0'.toNat
  else if 'a' ≤ c ∧ c ≤ 'f' then c.toNat - 'a'.toNat + 10
  else if 'A' ≤ c ∧ c ≤ 'F' then c.toNat - 'A'.toNat + 10
  else 0

/-- Embedding of `hex_to_rgb`: strip leading `#`, then read the three
two-digit hexadecimal channel values. -/
def hex_to_rgb (s : String) : Color :=
  match s.data.dropWhile (· = '#') with
  | [r1, r2, g1, g2, b1, b2] =>
      (16 * hexVal r1 + hexVal r2, 16 * hexVal g1 + hexVal g2,
       16 * hexVal b1 + hexVal b2)
  | _ => (0, 0, 0)

/-- Ocean color `hex_to_rgb("#1f78b4")`, line 113. -/
def ocean_color : Color := hex_to_rgb "#1f78b4"

/-- The ten GLOBIO-style green class colors, lines 116-127. -/
def hex_colors : List String :=
  ["#e0f3db", "#f7fcf5", "#e5f5e0", "#c7e9c0", "#a1d99b",
   "#74c476", "#41ab5d", "#238b45", "#006d2c", "#00441b"]

/-- The palette array of line 128. -/
def palette : List Color := hex_colors.map hex_to_rgb

/-- The classification bin edges of lines 129-132, as exact rationals. -/
def bins : List ℚ :=
  [0, 1/10, 2/10, 3/10, 4/10, 5/10, 6/10, 7/10, 8/10, 9/10, 10001/10000]

/-! ### Per-pixel classification (lines 200-235)

A pixel read from the warped virtual raster is either masked out
(no-data), non-finite, or carries a finite scalar value; finite values are
modelled as exact rationals. -/

/-- One pixel as delivered by `vrt.read(1, window=..., masked=True)`:
either masked out by the validity mask, a non-finite float, or a finite
value. -/
inductive Pix where
  | masked : Pix
  | nan : Pix
  | posInf : Pix
  | negInf : Pix
  | val : ℚ → Pix
deriving DecidableEq

/-- Whether the pixel lands in `nodata_mask = data_ma.mask | ~np.isfinite(data)`
of line 203 (masked entries are filled with NaN first, so they are also
non-finite). -/
def nodataPix : Pix → Bool
  | .val _ => false
  | _ => true

/-- Embedding of `np.clip(data, 0.0, 1.0)` on one finite value, line 219. -/
def clip01 (v : ℚ) : ℚ := max 0 (min v 1)

/-- Embedding of `np.digitize(x, bins)` for the monotonically increasing
bin-edge array used here: the number of edges that are at most `x`. -/
def digitizeQ (x : ℚ) (edges : List ℚ) : Nat :=
  edges.countP (fun b => b ≤ x)

/-- Element-wise model of lines 218-235: clip to `[0, 1]`; fold no-data and
values below `0.001` into the ocean color; classify the rest with
`np.digitize(..., bins) - 1` clamped to the palette index range. -/
def classifyPixel (p : Pix) : Color :=
  match p with
  | .val v =>
      if clip01 v < 1/1000 then ocean_color
      else
        palette.getD
          (max 0 (min ((digitizeQ (clip01 v) bins : ℤ) - 1)
            ((palette.length : ℤ) - 1))).toNat (0, 0, 0)
  | _ => ocean_color

/-! ### Tile grid planner (lines 96-98, 145-158) -/

/-- Number of tile columns, `(vrt.width + tile_size - 1) // tile_size`. -/
def nTilesX (W E : Nat) : Nat := (W + E - 1) / E

/-- Number of tile rows, `(vrt.height + tile_size - 1) // tile_size`. -/
def nTilesY (H E : Nat) : Nat := (H + E - 1) / E

/-- A pixel window of the virtual raster, as built on lines 149-158. -/
structure Win where
  col_off : ℤ
  row_off : ℤ
  width : ℤ
  height : ℤ
deriving DecidableEq

/-- Window of tile `(ty, tx)`, lines 149-152: offsets are multiples of the
tile edge and the edge tiles are clipped to the raster extent. -/
def windowFor (W H E : Nat) (ty tx : Nat) : Win :=
  { col_off := (tx : ℤ) * (E : ℤ)
    row_off := (ty : ℤ) * (E : ℤ)
    width := min (E : ℤ) ((W : ℤ) - (tx : ℤ) * (E : ℤ))
    height := min (E : ℤ) ((H : ℤ) - (ty : ℤ) * (E : ℤ)) }

/-- Row-major enumeration of tile coordinates `(ty, tx)`, lines 145-146. -/
def plannedTiles (W H E : Nat) : List (Nat × Nat) :=
  (List.range (nTilesY H E)).flatMap
    (fun ty => (List.range (nTilesX W E)).map (fun tx => (ty, tx)))

/-- Pixel `(px, py)` lies inside the window of tile `t`. -/
def inWindow (W H E : Nat) (t : Nat × Nat) (px py : Nat) : Prop :=
  (windowFor W H E t.1 t.2).col_off ≤ (px : ℤ) ∧
  (px : ℤ) < (windowFor W H E t.1 t.2).col_off + (windowFor W H E t.1 t.2).width ∧
  (windowFor W H E t.1 t.2).row_off ≤ (py : ℤ) ∧
  (py : ℤ) < (windowFor W H E t.1 t.2).row_off + (windowFor W H E t.1 t.2).height

instance (W H E : Nat) (t : Nat × Nat) (px py : Nat) :
    Decidable (inWindow W H E t px py) := by
  unfold inWindow; infer_instance

/-! ### Affine transforms and window bounds (lines 167-171) -/

/-- A 2-D affine georeferencing transform: pixel `(col, row)` maps to world
coordinates `(a*col + b*row + c, d*col + e*row + f)`. -/
structure Affine where
  a : ℚ
  b : ℚ
  c : ℚ
  d : ℚ
  e : ℚ
  f : ℚ
deriving DecidableEq

/-- Apply an affine transform to a pixel coordinate. -/
def Affine.apply (t : Affine) (col row : ℚ) : ℚ × ℚ :=
  (t.a * col + t.b * row + t.c, t.d * col + t.e * row + t.f)

/-- Embedding of `vrt.window_transform(window)`: the virtual raster's
transform composed with the translation by the window offsets. -/
def window_transform (t : Affine) (colOff rowOff : ℚ) : Affine :=
  { a := t.a, b := t.b, c := t.a * colOff + t.b * rowOff + t.c
    d := t.d, e := t.e, f := t.d * colOff + t.e * rowOff + t.f }

/-- Embedding of `rasterio.transform.array_bounds(height, width, transform)`:
returns `(left, bottom, right, top)` with `(left, top)` the image of pixel
`(0, 0)` and `(right, bottom)` the image of pixel `(width, height)`. -/
def array_bounds (h w : ℚ) (t : Affine) : ℚ × ℚ × ℚ × ℚ :=
  ((t.apply 0 0).1, (t.apply w h).2, (t.apply w h).1, (t.apply 0 0).2)

/-- Bounding box of a tile window, lines 167-171: `array_bounds` of the
window's own transform. -/
def tileBBox (t : Affine) (win : Win) : ℚ × ℚ × ℚ × ℚ :=
  array_bounds (win.height : ℚ) (win.width : ℚ)
    (window_transform t (win.col_off : ℚ) (win.row_off : ℚ))

/-! ### Manifest entries and the manifest dict (lines 52-64, 160-192, 248-254) -/

/-- One manifest entry, lines 179-189. -/
structure Entry where
  filename : String
  url : String
  bbox : ℚ × ℚ × ℚ × ℚ
  crs : String
deriving DecidableEq

/-- Pipeline configuration: the arguments of `chunk_reproject_to_3857_png`
together with the properties of the warped virtual raster they determine
(`resInt` is `int(target_res)` as used in the tile file names). -/
structure Cfg where
  stem : String
  tileSize : Nat
  resInt : ℤ
  baseUrl : Option String
  width : Nat
  height : Nat
  transform : Affine
deriving DecidableEq

/-- Zero-padded four-digit rendering of a tile index, as `f"{n:04d}"`. -/
def pad4 (n : Nat) : String :=
  let s := toString n
  if s.length < 4 then String.mk (List.replicate (4 - s.length) '0') ++ s else s

/-- Tile file name of lines 161-164. -/
def tileName (cfg : Cfg) (ty tx : Nat) : String :=
  cfg.stem ++ "_3857_res" ++ toString cfg.resInt ++ "m_tile_y" ++ pad4 ty ++
    "_x" ++ pad4 tx ++ ".png"

/-- Embedding of `base_url.rstrip("/")`. -/
def rstripSlash (s : String) : String :=
  String.mk ((s.data.reverse.dropWhile (· = '/')).reverse)

/-- Manifest URL of lines 173-177: prefix with the base URL when one is
configured and non-empty, else the bare file name. -/
def urlFor (cfg : Cfg) (name : String) : String :=
  match cfg.baseUrl with
  | some b => if b ≠ "" then rstripSlash b ++ "/" ++ name else name
  | none => name

/-- The manifest entry built for tile `(ty, tx)` on lines 167-189. -/
def mkEntry (cfg : Cfg) (ty tx : Nat) : Entry :=
  let name := tileName cfg ty tx
  { filename := name
    url := urlFor cfg name
    bbox := tileBBox cfg.transform (windowFor cfg.width cfg.height cfg.tileSize ty tx)
    crs := "EPSG:3857" }

/-- The in-memory `tile_manifest` dict: an insertion-ordered association
list from filename to entry. -/
abbrev Manifest := List (String × Entry)

/-- Python dict assignment `m[k] = v`: replace the (unique) existing entry
for `k` in place, else append at the end. -/
def dictUpsert (m : Manifest) (k : String) (v : Entry) : Manifest :=
  match m with
  | [] => [(k, v)]
  | p :: rest => if p.1 = k then (k, v) :: rest else p :: dictUpsert rest k v

/-- Dict lookup: the value at the first (with well-formed keys, only)
occurrence of the key. -/
def lookupM (m : Manifest) (k : String) : Option Entry :=
  (m.find? (fun p => decide (p.1 = k))).map Prod.snd

/-- The on-disk manifest document as the loader of lines 52-64 sees it:
absent, unreadable (malformed JSON), or a list of entries; an entry whose
`filename` field is missing or empty is modelled by `filename = ""`. -/
inductive ManifestFile where
  | missing : ManifestFile
  | malformed : ManifestFile
  | doc : List Entry → ManifestFile
deriving DecidableEq

/-- One step of the manifest-loading loop of lines 58-61: an entry with a
truthy `filename` is stored under that filename, any other entry is
ignored. -/
def loadStep (m : Manifest) (e : Entry) : Manifest :=
  if e.filename ≠ "" then dictUpsert m e.filename e else m

/-- Embedding of the manifest load of lines 52-64: a missing file yields the
empty dict; a malformed file is caught, warned about, and also yields the
empty dict; otherwise each listed entry with a truthy `filename` is stored
under that filename. -/
def loadDoc : ManifestFile → Manifest
  | .missing => []
  | .malformed => []
  | .doc es => es.foldl loadStep []

/-- The last entry of a list whose filename is `k`, if any: the value a
left-to-right sequence of upserts leaves under key `k`. -/
def findByName (es : List Entry) (k : String) : Option Entry :=
  es.reverse.find? (fun e => decide (e.filename = k))

/-- Boolean order on entries by filename, the `key=lambda e: e["filename"]`
sort key of line 251. -/
def entryLE (x y : Entry) : Bool := x.filename ≤ y.filename

/-- Embedding of lines 248-254: the persisted manifest document is the list
of the dict's values sorted by filename, written as a whole (the previous
document is fully replaced). -/
def persistManifest (m : Manifest) : List Entry :=
  (m.map Prod.snd).mergeSort entryLE

/-! ### Pipeline driver (lines 145-254) -/

/-- Mutable run state of the tile loop: the in-memory manifest dict, the
set of tile image files present on disk, and the files written this run. -/
structure PipeState where
  manifest : Manifest
  files : List String
  written : List String
deriving DecidableEq

/-- On-disk state shared between runs: tile image files and the manifest
document. -/
structure Disk where
  images : List String
  doc : ManifestFile
deriving DecidableEq

/-- One iteration of the tile loop, lines 147-246: skip windows with
non-positive width or height; otherwise always upsert the descriptor into
the manifest dict, then skip the pixel work when the PNG already exists,
else write the PNG. -/
def processTile (cfg : Cfg) (st : PipeState) (t : Nat × Nat) : PipeState :=
  let win := windowFor cfg.width cfg.height cfg.tileSize t.1 t.2
  if win.width ≤ 0 ∨ win.height ≤ 0 then st
  else
    let name := tileName cfg t.1 t.2
    let m' := dictUpsert st.manifest name (mkEntry cfg t.1 t.2)
    if name ∈ st.files then { st with manifest := m' }
    else
      { manifest := m', files := st.files ++ [name], written := st.written ++ [name] }

/-- Observable result of one pipeline run: the tile image files present
afterwards, the files written during the run, and the persisted manifest
document. -/
structure RunResult where
  files : List String
  written : List String
  persisted : List Entry
deriving DecidableEq

/-- One full run of `chunk_reproject_to_3857_png` against an on-disk state:
load the manifest, iterate all planned tiles row-major, persist the
manifest at the very end. -/
def runPipeline (cfg : Cfg) (disk : Disk) : RunResult :=
  let st0 : PipeState := ⟨loadDoc disk.doc, disk.images, []⟩
  let st := (plannedTiles cfg.width cfg.height cfg.tileSize).foldl (processTile cfg) st0
  ⟨st.files, st.written, persistManifest st.manifest⟩

/-- The on-disk state left behind by a completed run: the image files that
now exist, and the freshly persisted manifest document. -/
def afterRun (cfg : Cfg) (disk : Disk) : Disk :=
  ⟨(runPipeline cfg disk).files, .doc (runPipeline cfg disk).persisted⟩

/-! ### Fallible pipeline (per-tile exceptions)

The tile loop of lines 200-246 has no exception handler, so a raised
per-tile read, classification, or write error propagates and aborts the
run before the manifest write of lines 248-254. The fallible model makes
the failure point explicit: a tile that needs pixel work may raise. -/

/-- One iteration of the tile loop in which the pixel work (read, classify,
write) of a non-skipped tile may raise; a raise carries the state at the
moment of the exception (the descriptor upsert of line 192 has already
happened, the PNG write has not). -/
def processTileF (cfg : Cfg) (fails : Nat × Nat → Bool) (st : PipeState)
    (t : Nat × Nat) : Except PipeState PipeState :=
  let win := windowFor cfg.width cfg.height cfg.tileSize t.1 t.2
  if win.width ≤ 0 ∨ win.height ≤ 0 then .ok st
  else
    let name := tileName cfg t.1 t.2
    let st' : PipeState :=
      { st with manifest := dictUpsert st.manifest name (mkEntry cfg t.1 t.2) }
    if name ∈ st.files then .ok st'
    else if fails t then .error st'
    else .ok { manifest := st'.manifest, files := st.files ++ [name],
               written := st.written ++ [name] }

/-- Left fold of the fallible tile step over a list of tile coordinates,
stopping at the first raise. -/
def foldTilesF (cfg : Cfg) (fails : Nat × Nat → Bool) (st : PipeState) :
    List (Nat × Nat) → Except PipeState PipeState
  | [] => .ok st
  | t :: ts =>
      match processTileF cfg fails st t with
      | .error e => .error e
      | .ok s => foldTilesF cfg fails s ts

/-- The tile loop of the fallible model over all planned tiles. -/
def tileFoldF (cfg : Cfg) (disk : Disk) (fails : Nat × Nat → Bool) :
    Except PipeState PipeState :=
  foldTilesF cfg fails ⟨loadDoc disk.doc, disk.images, []⟩
    (plannedTiles cfg.width cfg.height cfg.tileSize)

/-- On-disk effect of a fallible run: on an uncaught per-tile exception the
run aborts before line 253, so the manifest document on disk is untouched
and only the tile PNGs written before the failure remain; on success the
manifest is persisted exactly once, at the end. -/
def runPipelineF (cfg : Cfg) (disk : Disk) (fails : Nat × Nat → Bool) : Disk :=
  match tileFoldF cfg disk fails with
  | .error st => ⟨st.files, disk.doc⟩
  | .ok st => ⟨st.files, .doc (persistManifest st.manifest)⟩

/-! ### CRS handling (chunk script lines 66-69; globio script lines 74-76) -/

/-- Embedding of line 67 of `chunk_reproject_3857_tiles.py`,
`src_crs = src.crs or "EPSG:4326"`: a missing source CRS is replaced by
EPSG:4326. -/
def chunkSrcCrs (crs : Option String) : String := crs.getD "EPSG:4326"

/-- Lines 68-69: a warning is printed exactly when the substituted source
CRS differs from EPSG:4326. -/
def chunkCrsWarns (crs : Option String) : Bool := chunkSrcCrs crs ≠ "EPSG:4326"

/-- The CRS-establishment step of the tiled pipeline, lines 66-69: it never
raises; it yields the source CRS, or EPSG:4326 when none is known. -/
def chunkEstablishCrs (crs : Option String) : Except String String :=
  .ok (chunkSrcCrs crs)

/-- Embedding of lines 74-76 of `globio_lu_to_png.py`: `reproject_to_world_square`
raises `ValueError` when the source dataset has no CRS. -/
def worldSquareCrsCheck (crs : Option String) : Except String Unit :=
  match crs with
  | none => .error "Source dataset has no CRS; cannot reproject."
  | some _ => .ok ()

/-! ### Auxiliary notions used by the statements and proofs -/

/-- The tile loop takes its pixel-work path for tile `t` exactly when the
window is non-degenerate (the negation of the skip guard on line 154). -/
def posWin (cfg : Cfg) (t : Nat × Nat) : Prop :=
  ¬((windowFor cfg.width cfg.height cfg.tileSize t.1 t.2).width ≤ 0 ∨
    (windowFor cfg.width cfg.height cfg.tileSize t.1 t.2).height ≤ 0)

instance (cfg : Cfg) (t : Nat × Nat) : Decidable (posWin cfg t) := by
  unfold posWin; infer_instance

/-- Fold a list of entries into a dict, each keyed by its own filename. -/
def upsertAll (m : Manifest) (es : List Entry) : Manifest :=
  es.foldl (fun acc e => dictUpsert acc e.filename e) m

/-- The descriptors upserted during one pass of the tile loop, in loop
order: one for every enumerated tile whose window is non-degenerate. -/
def stepEntries (cfg : Cfg) (ts : List (Nat × Nat)) : List Entry :=
  (ts.filter (fun t => decide (posWin cfg t))).map (fun t => mkEntry cfg t.1 t.2)

/-- Well-formedness of the manifest dict: keys are pairwise distinct and
each entry is keyed by its own filename. -/
def WFdict (m : Manifest) : Prop :=
  (m.map Prod.fst).Nodup ∧ ∀ p ∈ m, p.1 = p.2.filename

/-- All keys of the manifest dict are truthy (non-empty) filenames. -/
def WFkeys (m : Manifest) : Prop := ∀ p ∈ m, p.1 ≠ ""

/-- A small concrete configuration (a 1-by-1 virtual raster with tile edge
1) used to exercise the theorems on explicit inputs. -/
def cfg0 : Cfg :=
  { stem := "msa", tileSize := 1, resInt := 150, baseUrl := none,
    width := 1, height := 1, transform := ⟨1, 0, 0, 0, -1, 0⟩ }

/-- An empty starting disk: no tile images, no manifest document. -/
def disk0 : Disk := ⟨[], .missing⟩

/-- A sample manifest entry. -/
def entryA : Entry := ⟨"tile_a.png", "tile_a.png", (0, 0, 0, 0), "EPSG:3857"⟩

/-- A second sample entry with the same filename as `entryA` but a
different bounding box. -/
def entryB : Entry := ⟨"tile_a.png", "tile_a.png", (0, 0, 1, 1), "EPSG:3857"⟩

/-! ## Helper lemmas on the tile grid -/

lemma mem_plannedTiles {W H E : Nat} {t : Nat × Nat} :
    t ∈ plannedTiles W H E ↔ t.1 < nTilesY H E ∧ t.2 < nTilesX W E := by
  obtain ⟨ty, tx⟩ := t
  simp only [plannedTiles, List.mem_flatMap, List.mem_map, List.mem_range,
    Prod.mk.injEq]
  constructor
  · rintro ⟨a, ha, b, hb, h1, h2⟩
    subst h1; subst h2; exact ⟨ha, hb⟩
  · rintro ⟨h1, h2⟩
    exact ⟨ty, h1, tx, h2, rfl, rfl⟩

lemma tile_mul_lt {W E tx : Nat} (hE : 1 ≤ E) (htx : tx < nTilesX W E) :
    tx * E < W := by
  have h1 : (tx + 1) * E ≤ nTilesX W E * E := Nat.mul_le_mul_right E htx
  have h2 : nTilesX W E * E ≤ W + E - 1 := Nat.div_mul_le_self _ _
  have h3 : tx * E + E = (tx + 1) * E := by ring
  omega

lemma lt_ceil_mul {H E py : Nat} (hE : 1 ≤ E) (hpy : py < H) :
    py / E < nTilesY H E := by
  have hq := Nat.div_add_mod (H + E - 1) E
  have hr : (H + E - 1) % E < E := Nat.mod_lt _ (by omega)
  have hc : nTilesY H E * E = E * ((H + E - 1) / E) := by
    unfold nTilesY; ring
  have hH : H ≤ nTilesY H E * E := by omega
  exact (Nat.div_lt_iff_lt_mul (by omega)).mpr (lt_of_lt_of_le hpy hH)

lemma window_pos {W H E ty tx : Nat} (hE : 1 ≤ E)
    (hty : ty < nTilesY H E) (htx : tx < nTilesX W E) :
    1 ≤ (windowFor W H E ty tx).width ∧ 1 ≤ (windowFor W H E ty tx).height := by
  have h1 : tx * E < W := tile_mul_lt hE htx
  have h2 : ty * E < H := tile_mul_lt hE hty
  have h1' : (tx : ℤ) * (E : ℤ) < (W : ℤ) := by exact_mod_cast h1
  have h2' : (ty : ℤ) * (E : ℤ) < (H : ℤ) := by exact_mod_cast h2
  have hE' : (1 : ℤ) ≤ (E : ℤ) := by exact_mod_cast hE
  simp only [windowFor]
  exact ⟨le_min hE' (by omega), le_min hE' (by omega)⟩

/-! ## C2: tiling completeness -/

lemma covering_tile_mem {W H E : Nat} (hE : 1 ≤ E) {px py : Nat}
    (hpx : px < W) (hpy : py < H) :
    (py / E, px / E) ∈ plannedTiles W H E :=
  mem_plannedTiles.mpr ⟨lt_ceil_mul hE hpy, lt_ceil_mul hE hpx⟩

lemma covering_tile_inWindow {W H E : Nat} (hE : 1 ≤ E) {px py : Nat}
    (hpx : px < W) (hpy : py < H) :
    inWindow W H E (py / E, px / E) px py := by
  have hdx : E * (px / E) + px % E = px := Nat.div_add_mod px E
  have hmx : px % E < E := Nat.mod_lt _ (by omega)
  have hdy : E * (py / E) + py % E = py := Nat.div_add_mod py E
  have hmy : py % E < E := Nat.mod_lt _ (by omega)
  have hdx' : (E : ℤ) * ((px / E : Nat) : ℤ) + ((px % E : Nat) : ℤ) = (px : ℤ) := by
    exact_mod_cast hdx
  have hdy' : (E : ℤ) * ((py / E : Nat) : ℤ) + ((py % E : Nat) : ℤ) = (py : ℤ) := by
    exact_mod_cast hdy
  have hmx' : ((px % E : Nat) : ℤ) < (E : ℤ) := by exact_mod_cast hmx
  have hmy' : ((py % E : Nat) : ℤ) < (E : ℤ) := by exact_mod_cast hmy
  have hpx' : (px : ℤ) < (W : ℤ) := by exact_mod_cast hpx
  have hpy' : (py : ℤ) < (H : ℤ) := by exact_mod_cast hpy
  have hmxnn : (0 : ℤ) ≤ ((px % E : Nat) : ℤ) := Int.ofNat_nonneg _
  have hmynn : (0 : ℤ) ≤ ((py % E : Nat) : ℤ) := Int.ofNat_nonneg _
  refine ⟨?_, ?_, ?_, ?_⟩ <;> simp only [windowFor]
  · linarith
  · rcases le_total (E : ℤ) ((W : ℤ) - ((px / E : Nat) : ℤ) * (E : ℤ)) with h | h
    · rw [min_eq_left h]; linarith
    · rw [min_eq_right h]; linarith
  · linarith
  · rcases le_total (E : ℤ) ((H : ℤ) - ((py / E : Nat) : ℤ) * (E : ℤ)) with h | h
    · rw [min_eq_left h]; linarith
    · rw [min_eq_right h]; linarith

lemma inWindow_coord_unique {W H E : Nat} (hE : 1 ≤ E) {a b px py : Nat}
    (hwin : inWindow W H E (a, b) px py) : a = py / E ∧ b = px / E := by
  obtain ⟨h1, h2, h3, h4⟩ := hwin
  simp only [windowFor] at h1 h2 h3 h4
  have hwle : min (E : ℤ) ((W : ℤ) - (b : ℤ) * (E : ℤ)) ≤ (E : ℤ) := min_le_left _ _
  have hhle : min (E : ℤ) ((H : ℤ) - (a : ℤ) * (E : ℤ)) ≤ (E : ℤ) := min_le_left _ _
  have hx1' : b * E ≤ px := by exact_mod_cast h1
  have hy1' : a * E ≤ py := by exact_mod_cast h3
  have hx2' : px < (b + 1) * E := by
    have hz : (px : ℤ) < (((b + 1) * E : Nat) : ℤ) := by push_cast; linarith
    exact_mod_cast hz
  have hy2' : py < (a + 1) * E := by
    have hz : (py : ℤ) < (((a + 1) * E : Nat) : ℤ) := by push_cast; linarith
    exact_mod_cast hz
  exact ⟨(Nat.div_eq_of_lt_le hy1' hy2').symm, (Nat.div_eq_of_lt_le hx1' hx2').symm⟩

lemma inWindow_lt_bounds {W H E : Nat} {t : Nat × Nat} {px py : Nat}
    (hwin : inWindow W H E t px py) : px < W ∧ py < H := by
  obtain ⟨h1, h2, h3, h4⟩ := hwin
  simp only [windowFor] at h1 h2 h3 h4
  have hw : min (E : ℤ) ((W : ℤ) - (t.2 : ℤ) * (E : ℤ)) ≤ (W : ℤ) - (t.2 : ℤ) * (E : ℤ) :=
    min_le_right _ _
  have hh : min (E : ℤ) ((H : ℤ) - (t.1 : ℤ) * (E : ℤ)) ≤ (H : ℤ) - (t.1 : ℤ) * (E : ℤ) :=
    min_le_right _ _
  have hx : (px : ℤ) < (W : ℤ) := by omega
  have hy : (py : ℤ) < (H : ℤ) := by omega
  exact ⟨by exact_mod_cast hx, by exact_mod_cast hy⟩

lemma plannedTiles_length (W H E : Nat) :
    (plannedTiles W H E).length = nTilesX W E * nTilesY H E := by
  unfold plannedTiles
  rw [List.length_flatMap]
  simp only [Function.comp_def, List.length_map, List.length_range, List.map_const',
    List.sum_replicate, smul_eq_mul]
  ring

/-- C2. Tiling completeness: for all raster dimensions `W, H ≥ 1` and tile
edge `E ≥ 1`, the planner enumerates exactly `ceil(W/E) * ceil(H/E)` tile
coordinates; each enumerated tile `(row, col)` receives the window
`(col*E, row*E, min(E, W - col*E), min(E, H - row*E))`; every pixel of
`[0,W) × [0,H)` lies in the window of exactly one enumerated tile (so the
windows cover the raster with no overlap); and every window pixel lies
inside `[0,W) × [0,H)`. -/
theorem tiling_completeness_c2 (W H E : Nat)
    (hW : 1 ≤ W) (hH : 1 ≤ H) (hE : 1 ≤ E) :
    (plannedTiles W H E).length = nTilesX W E * nTilesY H E
    ∧ (∀ t ∈ plannedTiles W H E,
        windowFor W H E t.1 t.2 =
          ⟨(t.2 : ℤ) * (E : ℤ), (t.1 : ℤ) * (E : ℤ),
           min (E : ℤ) ((W : ℤ) - (t.2 : ℤ) * (E : ℤ)),
           min (E : ℤ) ((H : ℤ) - (t.1 : ℤ) * (E : ℤ))⟩)
    ∧ (∀ px py : Nat, px < W → py < H →
        ∃! t : Nat × Nat, t ∈ plannedTiles W H E ∧ inWindow W H E t px py)
    ∧ (∀ t ∈ plannedTiles W H E, ∀ px py : Nat,
        inWindow W H E t px py → px < W ∧ py < H) := by
  refine ⟨plannedTiles_length W H E, fun t _ => rfl, ?_, fun t _ px py h =>
    inWindow_lt_bounds h⟩
  intro px py hpx hpy
  refine ⟨(py / E, px / E),
    ⟨covering_tile_mem hE hpx hpy, covering_tile_inWindow hE hpx hpy⟩, ?_⟩
  rintro ⟨a, b⟩ ⟨_, hwin⟩
  obtain ⟨h1, h2⟩ := inWindow_coord_unique hE hwin
  simp [h1, h2]

/-- C2 witness: the theorem instantiated on a 5-by-3 raster with tile
edge 2. -/
theorem tiling_completeness_c2_witness :
    (plannedTiles 5 3 2).length = nTilesX 5 2 * nTilesY 3 2
    ∧ (∀ t ∈ plannedTiles 5 3 2,
        windowFor 5 3 2 t.1 t.2 =
          ⟨(t.2 : ℤ) * (2 : ℤ), (t.1 : ℤ) * (2 : ℤ),
           min (2 : ℤ) ((5 : ℤ) - (t.2 : ℤ) * (2 : ℤ)),
           min (2 : ℤ) ((3 : ℤ) - (t.1 : ℤ) * (2 : ℤ))⟩)
    ∧ (∀ px py : Nat, px < 5 → py < 3 →
        ∃! t : Nat × Nat, t ∈ plannedTiles 5 3 2 ∧ inWindow 5 3 2 t px py)
    ∧ (∀ t ∈ plannedTiles 5 3 2, ∀ px py : Nat,
        inWindow 5 3 2 t px py → px < 5 ∧ py < 3) := by
  have h := tiling_completeness_c2 5 3 2 (by decide) (by decide) (by decide)
  simpa using h

/-! ## C4: the concrete 2048-wide tiling scenario -/

/-- C4 counterexample. For a 2048-wide by 1024-high virtual raster with
tile edge 1024 the planner enumerates only the two tile coordinates
`(0,0)` and `(0,1)`: in particular `(1,1)` is not enumerated, and the
window computed at coordinate `(1,1)` would have height
`min(1024, 1024 - 1024) = 0`, not 1024. The claimed four-tile layout
requires a 2048-high raster. -/
theorem concrete_tiling_c4_counterexample :
    ((1, 1) ∉ plannedTiles 2048 1024 1024)
    ∧ plannedTiles 2048 1024 1024 = [(0, 0), (0, 1)]
    ∧ (windowFor 2048 1024 1024 1 1).height = 0 := by
  refine ⟨by decide, by decide, by decide⟩

/-- C4 amended. For a 2048-wide by 2048-high virtual raster with tile edge
1024, the planner yields exactly the coordinates `(0,0), (0,1), (1,0),
(1,1)`; the window of tile `(1,1)` is the unclipped pixel rectangle
`(col_off=1024, row_off=1024, width=1024, height=1024)`; and for every
affine transform of the virtual raster, the bounding box of that window
equals the transform applied to pixel corners `(1024, 1024)` and
`(2048, 2048)`. -/
theorem concrete_tiling_c4_amended (t : Affine) :
    plannedTiles 2048 2048 1024 = [(0, 0), (0, 1), (1, 0), (1, 1)]
    ∧ windowFor 2048 2048 1024 1 1 = ⟨1024, 1024, 1024, 1024⟩
    ∧ tileBBox t (windowFor 2048 2048 1024 1 1) =
        ((t.apply 1024 1024).1, (t.apply 2048 2048).2,
         (t.apply 2048 2048).1, (t.apply 1024 1024).2) := by
  have h : windowFor 2048 2048 1024 1 1 = ⟨1024, 1024, 1024, 1024⟩ := by decide
  refine ⟨by decide, h, ?_⟩
  rw [h]
  simp only [tileBBox, array_bounds, window_transform, Affine.apply, Prod.mk.injEq]
  refine ⟨?_, ?_, ?_, ?_⟩ <;> push_cast <;> ring

/-! ## C5: classification bucketing at threshold boundaries -/

lemma palette_length : palette.length = 10 := by
  simp [palette, hex_colors]

lemma classifyPixel_val_eq {v : ℚ} (h1 : 1 / 1000 ≤ v) (h2 : v ≤ 1) (n : Nat)
    (hd : digitizeQ v bins = n + 1) (hn : n ≤ 9) :
    classifyPixel (Pix.val v) = palette.getD n (0, 0, 0) := by
  have hc : clip01 v = v := by
    unfold clip01; rw [min_eq_left h2, max_eq_right (by linarith)]
  simp only [classifyPixel, hc, hd, palette_length, if_neg (not_lt.mpr h1)]
  congr 1
  omega

/-- C5. Boundary convention of the classifier: a valid value exactly equal
to an interior bin edge `bins[i]` (for `1 ≤ i ≤ 9`, i.e. 0.1 ... 0.9) is
assigned the color of the higher bucket, `palette[i]`; the concrete value
0.15 gets the bucket-1 color (interval `[0.1, 0.2)`) and 1.0 gets the
last bucket's color (interval `[0.9, 1.0001)`). -/
theorem classification_boundary_c5 :
    (∀ i : Nat, 1 ≤ i → i ≤ 9 →
      classifyPixel (Pix.val (bins.getD i 0)) = palette.getD i (0, 0, 0))
    ∧ classifyPixel (Pix.val (15 / 100)) = palette.getD 1 (0, 0, 0)
    ∧ classifyPixel (Pix.val 1) = palette.getD 9 (0, 0, 0) := by
  refine ⟨?_,
    classifyPixel_val_eq (by norm_num) (by norm_num) 1
      (by norm_num [digitizeQ, bins, List.countP_cons, List.countP_nil])
      (by norm_num),
    classifyPixel_val_eq (by norm_num) (by norm_num) 9
      (by norm_num [digitizeQ, bins, List.countP_cons, List.countP_nil])
      (by norm_num)⟩
  intro i h1 h2
  interval_cases i
  · show classifyPixel (Pix.val (1/10)) = palette.getD 1 (0, 0, 0)
    exact classifyPixel_val_eq (by norm_num) (by norm_num) 1
      (by norm_num [digitizeQ, bins, List.countP_cons, List.countP_nil]) (by norm_num)
  · show classifyPixel (Pix.val (2/10)) = palette.getD 2 (0, 0, 0)
    exact classifyPixel_val_eq (by norm_num) (by norm_num) 2
      (by norm_num [digitizeQ, bins, List.countP_cons, List.countP_nil]) (by norm_num)
  · show classifyPixel (Pix.val (3/10)) = palette.getD 3 (0, 0, 0)
    exact classifyPixel_val_eq (by norm_num) (by norm_num) 3
      (by norm_num [digitizeQ, bins, List.countP_cons, List.countP_nil]) (by norm_num)
  · show classifyPixel (Pix.val (4/10)) = palette.getD 4 (0, 0, 0)
    exact classifyPixel_val_eq (by norm_num) (by norm_num) 4
      (by norm_num [digitizeQ, bins, List.countP_cons, List.countP_nil]) (by norm_num)
  · show classifyPixel (Pix.val (5/10)) = palette.getD 5 (0, 0, 0)
    exact classifyPixel_val_eq (by norm_num) (by norm_num) 5
      (by norm_num [digitizeQ, bins, List.countP_cons, List.countP_nil]) (by norm_num)
  · show classifyPixel (Pix.val (6/10)) = palette.getD 6 (0, 0, 0)
    exact classifyPixel_val_eq (by norm_num) (by norm_num) 6
      (by norm_num [digitizeQ, bins, List.countP_cons, List.countP_nil]) (by norm_num)
  · show classifyPixel (Pix.val (7/10)) = palette.getD 7 (0, 0, 0)
    exact classifyPixel_val_eq (by norm_num) (by norm_num) 7
      (by norm_num [digitizeQ, bins, List.countP_cons, List.countP_nil]) (by norm_num)
  · show classifyPixel (Pix.val (8/10)) = palette.getD 8 (0, 0, 0)
    exact classifyPixel_val_eq (by norm_num) (by norm_num) 8
      (by norm_num [digitizeQ, bins, List.countP_cons, List.countP_nil]) (by norm_num)
  · show classifyPixel (Pix.val (9/10)) = palette.getD 9 (0, 0, 0)
    exact classifyPixel_val_eq (by norm_num) (by norm_num) 9
      (by norm_num [digitizeQ, bins, List.countP_cons, List.countP_nil]) (by norm_num)

/-- C5 witness: the boundary rule evaluated at the interior edge 0.5. -/
theorem classification_boundary_c5_witness :
    classifyPixel (Pix.val (bins.getD 5 0)) = palette.getD 5 (0, 0, 0) :=
  classification_boundary_c5.1 5 (by decide) (by decide)

/-! ## C6: background folding -/

/-- C6. Background folding: a pixel that is invalid (masked out of
coverage, equal to the no-data sentinel, or non-finite) or whose value
lies below the minimum-significance threshold 0.001 is rendered in the
ocean/background color, regardless of its raw classification bucket; the
classifier is a total function, so non-finite values never raise. -/
theorem background_folding_c6 (p : Pix)
    (h : nodataPix p = true ∨ ∃ v : ℚ, p = Pix.val v ∧ v < 1 / 1000) :
    classifyPixel p = ocean_color := by
  rcases h with h | ⟨v, rfl, hv⟩
  · cases p <;> simp_all [classifyPixel, nodataPix]
  · have hc : clip01 v < 1 / 1000 := by
      unfold clip01
      rcases le_total v 0 with h0 | h0
      · rw [min_eq_left (by linarith : v ≤ 1), max_eq_left h0]; norm_num
      · rw [min_eq_left (by linarith : v ≤ 1), max_eq_right h0]; exact hv
    simp only [classifyPixel, if_pos hc]

/-- C6 witness: a NaN pixel and a tiny positive value both render as
ocean. -/
theorem background_folding_c6_witness :
    classifyPixel Pix.nan = ocean_color
    ∧ classifyPixel (Pix.val (1 / 2000)) = ocean_color :=
  ⟨background_folding_c6 Pix.nan (Or.inl rfl),
   background_folding_c6 (Pix.val (1 / 2000))
     (Or.inr ⟨1 / 2000, rfl, by norm_num⟩)⟩

/-! ## C3: behavior when the source CRS is unknown -/

/-- C3 counterexample. The tiled pipeline does not fail fast on a missing
source CRS: line 67 of `chunk_reproject_3857_tiles.py` substitutes
EPSG:4326 (`src.crs or "EPSG:4326"`) and proceeds, and because the
substituted value then equals the expected EPSG:4326, not even the
mismatch warning of lines 68-69 is emitted. -/
theorem crs_handling_c3_counterexample :
    chunkEstablishCrs none = Except.ok "EPSG:4326"
    ∧ chunkCrsWarns none = false := by
  exact ⟨rfl, rfl⟩

/-- C3 amended. Fail-fast on unknown projection holds only for the
single-shot world-square script: `reproject_to_world_square` raises a
configuration error before any reprojection work when the source has no
CRS, and proceeds when one is present; the tiled pipeline instead
silently assumes EPSG:4326 for a source without CRS (warning only when a
known CRS differs from EPSG:4326). -/
theorem crs_handling_c3_amended :
    worldSquareCrsCheck none =
      Except.error "Source dataset has no CRS; cannot reproject."
    ∧ (∀ c : String, worldSquareCrsCheck (some c) = Except.ok ())
    ∧ chunkEstablishCrs none = Except.ok "EPSG:4326"
    ∧ chunkCrsWarns none = false
    ∧ (∀ c : String, chunkCrsWarns (some c) = true ↔ c ≠ "EPSG:4326") := by
  refine ⟨rfl, fun c => rfl, rfl, rfl, fun c => ?_⟩
  simp [chunkCrsWarns, chunkSrcCrs]

/-! ## Helper lemmas on the manifest dict -/

lemma lookupM_nil (k : String) : lookupM [] k = none := rfl

lemma lookupM_cons (p : String × Entry) (m : Manifest) (k : String) :
    lookupM (p :: m) k = if p.1 = k then some p.2 else lookupM m k := by
  by_cases h : p.1 = k <;> simp [lookupM, List.find?_cons, h]

lemma lookupM_dictUpsert (m : Manifest) (k : String) (v : Entry) (k' : String) :
    lookupM (dictUpsert m k v) k' = if k' = k then some v else lookupM m k' := by
  induction m with
  | nil =>
      by_cases h : k' = k
      · simp [dictUpsert, lookupM_cons, h]
      · simp [dictUpsert, lookupM_cons, h, Ne.symm h, lookupM_nil]
  | cons p rest ih =>
      by_cases hpk : p.1 = k
      · by_cases h : k' = k
        · subst h
          simp [dictUpsert, hpk, lookupM_cons, Ne.symm]
        · simp [dictUpsert, hpk, lookupM_cons, h, Ne.symm h]
      · by_cases h1 : p.1 = k' <;> by_cases h2 : k' = k
        · exact absurd (h1.trans h2) hpk
        · simp [dictUpsert, hpk, lookupM_cons, h1, h2, ih]
        · subst h2
          simp [dictUpsert, hpk, lookupM_cons, h1, ih]
        · simp [dictUpsert, hpk, lookupM_cons, h1, h2, ih]

lemma mem_dictUpsert {m : Manifest} {k : String} {v : Entry} {p : String × Entry}
    (h : p ∈ dictUpsert m k v) : p ∈ m ∨ p = (k, v) := by
  induction m with
  | nil =>
      simp only [dictUpsert, List.mem_singleton] at h
      exact Or.inr h
  | cons q rest ih =>
      by_cases hqk : q.1 = k
      · simp only [dictUpsert, if_pos hqk, List.mem_cons] at h
        rcases h with h | h
        · exact Or.inr h
        · exact Or.inl (List.mem_cons_of_mem _ h)
      · simp only [dictUpsert, if_neg hqk, List.mem_cons] at h
        rcases h with h | h
        · exact Or.inl (h ▸ List.mem_cons_self q rest)
        · rcases ih h with h' | h'
          · exact Or.inl (List.mem_cons_of_mem _ h')
          · exact Or.inr h'

lemma keys_mem_dictUpsert {m : Manifest} {k : String} {v : Entry} {a : String} :
    a ∈ (dictUpsert m k v).map Prod.fst ↔ a ∈ m.map Prod.fst ∨ a = k := by
  induction m with
  | nil => simp [dictUpsert]
  | cons q rest ih =>
      by_cases hqk : q.1 = k
      · simp only [dictUpsert, if_pos hqk, List.map_cons, List.mem_cons]
        constructor
        · rintro (h | h)
          · exact Or.inr h
          · exact Or.inl (Or.inr h)
        · rintro ((h | h) | h)
          · exact Or.inl (hqk ▸ h)
          · exact Or.inr h
          · exact Or.inl h
      · simp only [dictUpsert, if_neg hqk, List.map_cons, List.mem_cons, ih]
        tauto

lemma WFdict_nil : WFdict [] := ⟨List.nodup_nil, by simp⟩

lemma WFkeys_nil : WFkeys [] := by intro p hp; simp at hp

lemma WFdict_cons_iff {p : String × Entry} {m : Manifest} :
    WFdict (p :: m) ↔
      (p.1 ∉ m.map Prod.fst ∧ p.1 = p.2.filename) ∧ WFdict m := by
  unfold WFdict
  simp only [List.map_cons, List.nodup_cons, List.mem_cons]
  constructor
  · rintro ⟨⟨h1, h2⟩, h3⟩
    exact ⟨⟨h1, h3 p (Or.inl rfl)⟩, h2, fun q hq => h3 q (Or.inr hq)⟩
  · rintro ⟨⟨h1, h2⟩, h3, h4⟩
    refine ⟨⟨h1, h3⟩, fun q hq => ?_⟩
    rcases hq with rfl | hq
    · exact h2
    · exact h4 q hq

lemma WFdict_dictUpsert {m : Manifest} {k : String} {v : Entry}
    (hm : WFdict m) (hv : k = v.filename) : WFdict (dictUpsert m k v) := by
  induction m with
  | nil =>
      simp only [dictUpsert]
      exact WFdict_cons_iff.mpr ⟨⟨by simp, hv⟩, WFdict_nil⟩
  | cons q rest ih =>
      obtain ⟨⟨hq1, hq2⟩, hrest⟩ := WFdict_cons_iff.mp hm
      by_cases hqk : q.1 = k
      · simp only [dictUpsert, if_pos hqk]
        exact WFdict_cons_iff.mpr ⟨⟨hqk ▸ hq1, hv⟩, hrest⟩
      · simp only [dictUpsert, if_neg hqk]
        refine WFdict_cons_iff.mpr ⟨⟨?_, hq2⟩, ih hrest⟩
        rw [keys_mem_dictUpsert]
        rintro (h | h)
        · exact hq1 h
        · exact hqk h

lemma WFkeys_dictUpsert {m : Manifest} {k : String} {v : Entry}
    (hm : WFkeys m) (hk : k ≠ "") : WFkeys (dictUpsert m k v) := by
  intro p hp
  rcases mem_dictUpsert hp with h | rfl
  · exact hm p h
  · exact hk

lemma upsertAll_cons (m : Manifest) (e : Entry) (es : List Entry) :
    upsertAll m (e :: es) = upsertAll (dictUpsert m e.filename e) es := rfl

lemma lookupM_upsertAll (es : List Entry) (m : Manifest) (k : String) :
    lookupM (upsertAll m es) k = (findByName es k).or (lookupM m k) := by
  induction es generalizing m with
  | nil => simp [upsertAll, findByName]
  | cons e es ih =>
      rw [upsertAll_cons, ih]
      simp only [findByName, List.reverse_cons, List.find?_append]
      cases hfind : es.reverse.find? (fun x => decide (x.filename = k)) with
      | some a => simp [hfind, Option.or]
      | none =>
          rw [lookupM_dictUpsert]
          by_cases h : e.filename = k
          · simp [hfind, List.find?, h, Option.or]
          · simp [hfind, List.find?, h, Ne.symm h, Option.or]

lemma WF_upsertAll (es : List Entry) (m : Manifest)
    (h1 : WFdict m) (h2 : WFkeys m) (hes : ∀ e ∈ es, e.filename ≠ "") :
    WFdict (upsertAll m es) ∧ WFkeys (upsertAll m es) := by
  induction es generalizing m with
  | nil => exact ⟨h1, h2⟩
  | cons e es ih =>
      rw [upsertAll_cons]
      exact ih (dictUpsert m e.filename e)
        (WFdict_dictUpsert h1 rfl)
        (WFkeys_dictUpsert h2 (hes e (List.mem_cons_self e es)))
        (fun x hx => hes x (List.mem_cons_of_mem _ hx))

lemma loadFold_WF (es : List Entry) (m : Manifest)
    (h1 : WFdict m) (h2 : WFkeys m) :
    WFdict (es.foldl loadStep m) ∧ WFkeys (es.foldl loadStep m) := by
  induction es generalizing m with
  | nil => exact ⟨h1, h2⟩
  | cons e es ih =>
      rw [List.foldl_cons]
      by_cases h : e.filename = ""
      · have hstep : loadStep m e = m := by simp [loadStep, h]
        rw [hstep]; exact ih m h1 h2
      · have hstep : loadStep m e = dictUpsert m e.filename e := by simp [loadStep, h]
        rw [hstep]
        exact ih _ (WFdict_dictUpsert h1 rfl) (WFkeys_dictUpsert h2 h)

lemma loadDoc_WF (d : ManifestFile) : WFdict (loadDoc d) ∧ WFkeys (loadDoc d) := by
  cases d with
  | missing => exact ⟨WFdict_nil, WFkeys_nil⟩
  | malformed => exact ⟨WFdict_nil, WFkeys_nil⟩
  | doc es => exact loadFold_WF es [] WFdict_nil WFkeys_nil

lemma loadFold_eq_upsertAll (es : List Entry) (m : Manifest) :
    es.foldl loadStep m = upsertAll m (es.filter (fun e => decide (e.filename ≠ ""))) := by
  induction es generalizing m with
  | nil => rfl
  | cons e es ih =>
      rw [List.foldl_cons, List.filter_cons]
      by_cases h : e.filename = ""
      · have hstep : loadStep m e = m := by simp [loadStep, h]
        simp only [h, hstep, ih]
        norm_num
      · have hstep : loadStep m e = dictUpsert m e.filename e := by simp [loadStep, h]
        simp only [hstep, ih]
        rw [if_pos (by simpa using h)]
        rfl

lemma findByName_filter_ne (es : List Entry) (k : String) (hk : k ≠ "") :
    findByName (es.filter (fun e => decide (e.filename ≠ ""))) k = findByName es k := by
  unfold findByName
  rw [← List.filter_reverse]
  generalize es.reverse = l
  induction l with
  | nil => rfl
  | cons a l ih =>
      rw [List.filter_cons]
      by_cases h : a.filename = ""
      · rw [if_neg (by simpa using h)]
        rw [List.find?_cons_of_neg _ (by simp [h, Ne.symm hk])]
        exact ih
      · rw [if_pos (by simpa using h)]
        by_cases h2 : a.filename = k
        · rw [List.find?_cons_of_pos _ (by simp [h2]),
            List.find?_cons_of_pos _ (by simp [h2])]
        · rw [List.find?_cons_of_neg _ (by simp [h2]),
            List.find?_cons_of_neg _ (by simp [h2])]
          exact ih

lemma lookupM_eq_some_iff {m : Manifest} (hm : WFdict m) {k : String} {e : Entry} :
    lookupM m k = some e ↔ (k, e) ∈ m := by
  induction m with
  | nil => simp [lookupM_nil]
  | cons p rest ih =>
      obtain ⟨⟨hp1, _⟩, hrest⟩ := WFdict_cons_iff.mp hm
      rw [lookupM_cons]
      by_cases h : p.1 = k
      · rw [if_pos h]
        constructor
        · rintro hsome
          have : p = (k, e) := by
            obtain ⟨a, b⟩ := p
            simp only [Option.some_inj] at hsome
            simp only at h hsome
            rw [h, hsome]
          exact this ▸ List.mem_cons_self p rest
        · rintro hmem
          rcases List.mem_cons.mp hmem with heq | hmem'
          · rw [← heq]
          · exact absurd (h ▸ List.mem_map.mpr ⟨(k, e), hmem', rfl⟩) hp1
      · rw [if_neg h, ih hrest]
        constructor
        · exact fun hmem => List.mem_cons_of_mem _ hmem
        · rintro hmem
          rcases List.mem_cons.mp hmem with heq | hmem'
          · exact absurd (congrArg Prod.fst heq.symm) h
          · exact hmem'

lemma find?_name_eq_some_iff {L : List Entry}
    (hnd : (L.map Entry.filename).Nodup) {k : String} {e : Entry} :
    L.find? (fun x => decide (x.filename = k)) = some e ↔ e ∈ L ∧ e.filename = k := by
  induction L with
  | nil => simp
  | cons a l ih =>
      simp only [List.map_cons, List.nodup_cons] at hnd
      obtain ⟨ha, hl⟩ := hnd
      by_cases h : a.filename = k
      · rw [List.find?_cons_of_pos _ (by simp [h])]
        constructor
        · rintro hsome
          simp only [Option.some_inj] at hsome
          exact ⟨hsome ▸ List.mem_cons_self a l, hsome ▸ h⟩
        · rintro ⟨hmem, hek⟩
          rcases List.mem_cons.mp hmem with rfl | hmem'
          · rfl
          · exact absurd (h ▸ hek ▸ List.mem_map.mpr ⟨e, hmem', rfl⟩) ha
      · rw [List.find?_cons_of_neg _ (by simp [h])]
        rw [ih hl]
        constructor
        · rintro ⟨hmem, hek⟩
          exact ⟨List.mem_cons_of_mem _ hmem, hek⟩
        · rintro ⟨hmem, hek⟩
          rcases List.mem_cons.mp hmem with rfl | hmem'
          · exact absurd hek h
          · exact ⟨hmem', hek⟩

lemma values_names_nodup {m : Manifest} (hm : WFdict m) :
    ((m.map Prod.snd).map Entry.filename).Nodup := by
  have h : (m.map Prod.snd).map Entry.filename = m.map Prod.fst := by
    rw [List.map_map]
    exact List.map_congr_left (fun p hp => (hm.2 p hp).symm)
  rw [h]
  exact hm.1

lemma persist_perm (m : Manifest) :
    (persistManifest m).Perm (m.map Prod.snd) :=
  List.mergeSort_perm _ _

lemma persist_names_nodup {m : Manifest} (hm : WFdict m) :
    ((persistManifest m).map Entry.filename).Nodup :=
  (((persist_perm m).map Entry.filename).nodup_iff).mpr (values_names_nodup hm)

lemma lookupM_none_of_keys {m : Manifest} {k : String}
    (h : ∀ p ∈ m, p.1 ≠ k) : lookupM m k = none := by
  unfold lookupM
  rw [List.find?_eq_none.mpr (fun p hp => by simpa using h p hp)]
  rfl

lemma lookupM_roundtrip (m : Manifest) (h1 : WFdict m) (h2 : WFkeys m)
    (k : String) :
    lookupM (loadDoc (.doc (persistManifest m))) k = lookupM m k := by
  have hperm : (persistManifest m).Perm (m.map Prod.snd) := persist_perm m
  have hnames : ∀ e ∈ persistManifest m, e.filename ≠ "" := by
    intro e he
    obtain ⟨p, hp, rfl⟩ := List.mem_map.mp (hperm.mem_iff.mp he)
    rw [← h1.2 p hp]
    exact h2 p hp
  have hnd : ((persistManifest m).map Entry.filename).Nodup := persist_names_nodup h1
  rw [show loadDoc (.doc (persistManifest m)) = (persistManifest m).foldl loadStep []
      from rfl,
    loadFold_eq_upsertAll, lookupM_upsertAll, lookupM_nil, Option.or_none]
  by_cases hk : k = ""
  · subst hk
    rw [lookupM_none_of_keys (fun p hp => h2 p hp)]
    unfold findByName
    rw [List.find?_eq_none.mpr]
    intro x hx
    have hx' : x ∈ persistManifest m :=
      List.mem_of_mem_filter (List.mem_reverse.mp hx)
    simpa using hnames x hx'
  · rw [findByName_filter_ne _ _ hk]
    unfold findByName
    have hndr : ((persistManifest m).reverse.map Entry.filename).Nodup := by
      rw [List.map_reverse]
      exact List.nodup_reverse.mpr hnd
    cases hcase : lookupM m k with
    | some e =>
        have hpair : (k, e) ∈ m := (lookupM_eq_some_iff h1).mp hcase
        have hev : e ∈ persistManifest m :=
          hperm.mem_iff.mpr (List.mem_map.mpr ⟨(k, e), hpair, rfl⟩)
        have hef : e.filename = k := (h1.2 _ hpair).symm
        exact (find?_name_eq_some_iff hndr).mpr ⟨List.mem_reverse.mpr hev, hef⟩
    | none =>
        rw [List.find?_eq_none.mpr]
        intro x hx
        simp only [decide_eq_true_eq]
        intro hxf
        obtain ⟨p, hp, rfl⟩ :=
          List.mem_map.mp (hperm.mem_iff.mp (List.mem_reverse.mp hx))
        have hpk : p = (k, p.2) := by
          obtain ⟨a, b⟩ := p
          simp only
          rw [show a = b.filename from h1.2 (a, b) hp, hxf]
        have : lookupM m k = some p.2 :=
          (lookupM_eq_some_iff h1).mpr (hpk ▸ hp)
        rw [hcase] at this
        exact Option.noConfusion this

lemma mem_iff_lookupM {m : Manifest} (hm : WFdict m) (p : String × Entry) :
    p ∈ m ↔ lookupM m p.1 = some p.2 := by
  rw [lookupM_eq_some_iff hm]

lemma values_perm_of_lookup_eq {m1 m2 : Manifest}
    (h1 : WFdict m1) (h2 : WFdict m2)
    (h : ∀ k, lookupM m1 k = lookupM m2 k) :
    (m1.map Prod.snd).Perm (m2.map Prod.snd) := by
  have hn1 : m1.Nodup := h1.1.of_map
  have hn2 : m2.Nodup := h2.1.of_map
  have hmem : ∀ p : String × Entry, p ∈ m1 ↔ p ∈ m2 := by
    intro p
    rw [mem_iff_lookupM h1, mem_iff_lookupM h2, h p.1]
  exact (List.perm_of_nodup_nodup_toFinset_eq hn1 hn2
    (Finset.ext (fun p => by simp [List.mem_toFinset, hmem p]))).map Prod.snd

instance : IsAntisymm Entry (fun a b : Entry => a.filename < b.filename) :=
  ⟨fun _ _ hab hba => absurd hba (lt_asymm hab)⟩

lemma entryLE_trans : ∀ a b c : Entry,
    entryLE a b = true → entryLE b c = true → entryLE a c = true := by
  intro a b c hab hbc
  simp only [entryLE, decide_eq_true_eq] at *
  exact le_trans hab hbc

lemma entryLE_total : ∀ a b : Entry, (entryLE a b || entryLE b a) = true := by
  intro a b
  simp only [entryLE, Bool.or_eq_true, decide_eq_true_eq]
  exact le_total _ _

lemma persist_sorted_strict {m : Manifest} (hm : WFdict m) :
    List.Sorted (fun a b : Entry => a.filename < b.filename) (persistManifest m) := by
  have hs : (persistManifest m).Pairwise (fun a b => entryLE a b = true) :=
    List.sorted_mergeSort entryLE_trans entryLE_total _
  have hne : (persistManifest m).Pairwise (fun a b => a.filename ≠ b.filename) :=
    List.pairwise_map.mp (persist_names_nodup hm)
  exact (hs.and hne).imp
    (fun hab => lt_of_le_of_ne (by simpa [entryLE] using hab.1) hab.2)

lemma persist_eq_of_lookup_eq {m1 m2 : Manifest}
    (h1 : WFdict m1) (h2 : WFdict m2)
    (h : ∀ k, lookupM m1 k = lookupM m2 k) :
    persistManifest m1 = persistManifest m2 := by
  have hperm : (persistManifest m1).Perm (persistManifest m2) :=
    (persist_perm m1).trans
      ((values_perm_of_lookup_eq h1 h2 h).trans (persist_perm m2).symm)
  exact List.eq_of_perm_of_sorted hperm (persist_sorted_strict h1)
    (persist_sorted_strict h2)

/-! ## Helper lemmas on the tile loop -/

lemma mkEntry_filename (cfg : Cfg) (ty tx : Nat) :
    (mkEntry cfg ty tx).filename = tileName cfg ty tx := rfl

lemma tileName_ne_empty (cfg : Cfg) (ty tx : Nat) : tileName cfg ty tx ≠ "" := by
  intro h
  have hlen : (tileName cfg ty tx).length = 0 := by rw [h]; rfl
  have h4 : (".png").length = 4 := rfl
  unfold tileName at hlen
  simp only [String.length_append] at hlen
  omega

lemma processTile_skip {cfg : Cfg} {st : PipeState} {t : Nat × Nat}
    (h : ¬posWin cfg t) : processTile cfg st t = st := by
  unfold posWin at h
  rw [not_not] at h
  simp [processTile, h]

lemma processTile_manifest (cfg : Cfg) (st : PipeState) (t : Nat × Nat) :
    (processTile cfg st t).manifest =
      if posWin cfg t then
        dictUpsert st.manifest (tileName cfg t.1 t.2) (mkEntry cfg t.1 t.2)
      else st.manifest := by
  by_cases h : posWin cfg t
  · rw [if_pos h]
    have h' := h
    unfold posWin at h'
    by_cases hf : tileName cfg t.1 t.2 ∈ st.files <;> simp [processTile, h', hf]
  · rw [if_neg h, processTile_skip h]

lemma processTile_files (cfg : Cfg) (st : PipeState) (t : Nat × Nat) :
    (processTile cfg st t).files =
      if posWin cfg t ∧ tileName cfg t.1 t.2 ∉ st.files
      then st.files ++ [tileName cfg t.1 t.2] else st.files := by
  by_cases h : posWin cfg t
  · have h' := h
    unfold posWin at h'
    by_cases hf : tileName cfg t.1 t.2 ∈ st.files <;> simp [processTile, h, h', hf]
  · rw [processTile_skip h, if_neg (fun hc => h hc.1)]

lemma processTile_written (cfg : Cfg) (st : PipeState) (t : Nat × Nat) :
    (processTile cfg st t).written =
      if posWin cfg t ∧ tileName cfg t.1 t.2 ∉ st.files
      then st.written ++ [tileName cfg t.1 t.2] else st.written := by
  by_cases h : posWin cfg t
  · have h' := h
    unfold posWin at h'
    by_cases hf : tileName cfg t.1 t.2 ∈ st.files <;> simp [processTile, h, h', hf]
  · rw [processTile_skip h, if_neg (fun hc => h hc.1)]

lemma processTile_files_mono {cfg : Cfg} {st : PipeState} {t : Nat × Nat}
    {n : String} (h : n ∈ st.files) : n ∈ (processTile cfg st t).files := by
  rw [processTile_files]
  split
  · exact List.mem_append_left _ h
  · exact h

lemma foldl_files_mono {cfg : Cfg} {ts : List (Nat × Nat)} {st : PipeState}
    {n : String} (h : n ∈ st.files) :
    n ∈ (ts.foldl (processTile cfg) st).files := by
  induction ts generalizing st with
  | nil => exact h
  | cons t ts ih => exact ih (processTile_files_mono h)

lemma stepEntries_cons_pos {cfg : Cfg} {t : Nat × Nat} {ts : List (Nat × Nat)}
    (h : posWin cfg t) :
    stepEntries cfg (t :: ts) = mkEntry cfg t.1 t.2 :: stepEntries cfg ts := by
  unfold stepEntries
  rw [List.filter_cons, if_pos (by simpa using h), List.map_cons]

lemma stepEntries_cons_neg {cfg : Cfg} {t : Nat × Nat} {ts : List (Nat × Nat)}
    (h : ¬posWin cfg t) :
    stepEntries cfg (t :: ts) = stepEntries cfg ts := by
  unfold stepEntries
  rw [List.filter_cons, if_neg (by simpa using h)]

lemma stepEntries_names (cfg : Cfg) (ts : List (Nat × Nat)) :
    ∀ e ∈ stepEntries cfg ts, e.filename ≠ "" := by
  intro e he
  obtain ⟨t, _, rfl⟩ := List.mem_map.mp he
  rw [mkEntry_filename]
  exact tileName_ne_empty cfg t.1 t.2

lemma foldl_manifest (cfg : Cfg) (ts : List (Nat × Nat)) (st : PipeState) :
    (ts.foldl (processTile cfg) st).manifest =
      upsertAll st.manifest (stepEntries cfg ts) := by
  induction ts generalizing st with
  | nil => rfl
  | cons t ts ih =>
      rw [List.foldl_cons, ih]
      by_cases h : posWin cfg t
      · rw [stepEntries_cons_pos h, upsertAll_cons, mkEntry_filename,
          processTile_manifest, if_pos h]
      · rw [stepEntries_cons_neg h, processTile_manifest, if_neg h]

lemma foldl_files_contains (cfg : Cfg) (ts : List (Nat × Nat)) (st : PipeState) :
    ∀ t ∈ ts, posWin cfg t →
      tileName cfg t.1 t.2 ∈ (ts.foldl (processTile cfg) st).files := by
  induction ts generalizing st with
  | nil => simp
  | cons u ts ih =>
      intro t ht hpw
      rcases List.mem_cons.mp ht with rfl | ht'
      · rw [List.foldl_cons]
        apply foldl_files_mono
        rw [processTile_files]
        by_cases hf : tileName cfg t.1 t.2 ∈ st.files
        · rw [if_neg (fun hc => hc.2 hf)]
          exact hf
        · rw [if_pos ⟨hpw, hf⟩]
          exact List.mem_append_right _ (List.mem_singleton.mpr rfl)
      · rw [List.foldl_cons]
        exact ih _ t ht' hpw

lemma foldl_no_work (cfg : Cfg) (ts : List (Nat × Nat)) (st : PipeState)
    (h : ∀ t ∈ ts, posWin cfg t → tileName cfg t.1 t.2 ∈ st.files) :
    (ts.foldl (processTile cfg) st).files = st.files ∧
    (ts.foldl (processTile cfg) st).written = st.written := by
  induction ts generalizing st with
  | nil => exact ⟨rfl, rfl⟩
  | cons t ts ih =>
      rw [List.foldl_cons]
      have hcond : ¬(posWin cfg t ∧ tileName cfg t.1 t.2 ∉ st.files) := by
        rintro ⟨hpw, hnm⟩
        exact hnm (h t (List.mem_cons_self t ts) hpw)
      have hfiles : (processTile cfg st t).files = st.files := by
        rw [processTile_files, if_neg hcond]
      have hwritten : (processTile cfg st t).written = st.written := by
        rw [processTile_written, if_neg hcond]
      have hrest := ih (processTile cfg st t)
        (fun u hu hpw => by rw [hfiles]; exact h u (List.mem_cons_of_mem _ hu) hpw)
      exact ⟨hrest.1.trans hfiles, hrest.2.trans hwritten⟩

lemma foldl_written_inv (cfg : Cfg) (ts : List (Nat × Nat)) (st : PipeState)
    (n : String) (h1 : n ∈ st.files) (h2 : n ∉ st.written) :
    n ∈ (ts.foldl (processTile cfg) st).files ∧
    n ∉ (ts.foldl (processTile cfg) st).written := by
  induction ts generalizing st with
  | nil => exact ⟨h1, h2⟩
  | cons t ts ih =>
      rw [List.foldl_cons]
      refine ih (processTile cfg st t) (processTile_files_mono h1) ?_
      rw [processTile_written]
      split
      · rename_i hc
        intro hmem
        rcases List.mem_append.mp hmem with hmem | hmem
        · exact h2 hmem
        · exact hc.2 (List.mem_singleton.mp hmem ▸ h1)
      · exact h2

/-! ## C7: manifest key uniqueness and sorted persistence -/

lemma filter_values_dictUpsert {m : Manifest} (hm : WFdict m) {k : String}
    {v : Entry} (hv : k = v.filename) :
    ((dictUpsert m k v).map Prod.snd).filter
      (fun e => decide (e.filename = k)) = [v] := by
  induction m with
  | nil => simp [dictUpsert, hv.symm]
  | cons p rest ih =>
      obtain ⟨⟨hp1, hp2⟩, hrest⟩ := WFdict_cons_iff.mp hm
      by_cases hpk : p.1 = k
      · simp only [dictUpsert, if_pos hpk, List.map_cons, List.filter_cons]
        rw [if_pos (by simp [hv.symm])]
        have hrestf : (rest.map Prod.snd).filter
            (fun e => decide (e.filename = k)) = [] := by
          rw [List.filter_eq_nil_iff]
          intro e he
          obtain ⟨q, hq, rfl⟩ := List.mem_map.mp he
          have hqf : q.1 = q.2.filename := hrest.2 q hq
          have hq1 : q.1 ≠ k := by
            intro hqk
            exact hp1 (List.mem_map.mpr ⟨q, hq, hqk.trans hpk.symm⟩)
          simp only [decide_eq_true_eq]
          rw [← hqf]
          exact hq1
        rw [hrestf]
      · simp only [dictUpsert, if_neg hpk, List.map_cons, List.filter_cons]
        rw [if_neg (by simp only [decide_eq_true_eq]; rw [← hp2]; exact hpk)]
        exact ih hrest

/-- C7. Manifest key uniqueness and sorted persistence: after upserting two
descriptors that share a filename into a well-formed manifest dict, the
persisted document contains exactly one entry with that filename, namely
the later descriptor; and the persisted document is sorted by filename and
is a permutation of the dict's values (it is rebuilt wholesale from the
mapping, never appended to a previous document). -/
theorem manifest_uniqueness_c7 (m : Manifest) (e1 e2 : Entry)
    (hk : e1.filename = e2.filename) (hm : WFdict m) :
    ((persistManifest
        (dictUpsert (dictUpsert m e1.filename e1) e2.filename e2)).filter
      (fun e => decide (e.filename = e2.filename)) = [e2])
    ∧ List.Pairwise (fun a b => entryLE a b = true)
        (persistManifest (dictUpsert (dictUpsert m e1.filename e1) e2.filename e2))
    ∧ (persistManifest
        (dictUpsert (dictUpsert m e1.filename e1) e2.filename e2)).Perm
        ((dictUpsert (dictUpsert m e1.filename e1) e2.filename e2).map Prod.snd) := by
  have hm1 : WFdict (dictUpsert m e1.filename e1) := WFdict_dictUpsert hm rfl
  refine ⟨?_, List.sorted_mergeSort entryLE_trans entryLE_total _, persist_perm _⟩
  have hfv : ((dictUpsert (dictUpsert m e1.filename e1) e2.filename e2).map
      Prod.snd).filter (fun e => decide (e.filename = e2.filename)) = [e2] :=
    filter_values_dictUpsert hm1 rfl
  have hperm := (persist_perm
      (dictUpsert (dictUpsert m e1.filename e1) e2.filename e2)).filter
    (fun e => decide (e.filename = e2.filename))
  rw [hfv] at hperm
  exact List.perm_singleton.mp hperm

/-- C7 witness: the theorem instantiated on the empty dict and the two
sample entries that share a filename but differ in bounding box. -/
theorem manifest_uniqueness_c7_witness :
    ((persistManifest
        (dictUpsert (dictUpsert [] entryA.filename entryA) entryB.filename entryB)).filter
      (fun e => decide (e.filename = entryB.filename)) = [entryB])
    ∧ List.Pairwise (fun a b => entryLE a b = true)
        (persistManifest (dictUpsert (dictUpsert [] entryA.filename entryA) entryB.filename entryB))
    ∧ (persistManifest
        (dictUpsert (dictUpsert [] entryA.filename entryA) entryB.filename entryB)).Perm
        ((dictUpsert (dictUpsert [] entryA.filename entryA) entryB.filename entryB).map Prod.snd) :=
  manifest_uniqueness_c7 [] entryA entryB rfl WFdict_nil

/-! ## C8: manifest load tolerance -/

/-- C8. Manifest load tolerance: a missing manifest file loads as the empty
mapping; a malformed manifest file is caught with a warning and the run
proceeds exactly as if no manifest existed; and a run never writes a tile
image file that already existed on disk (so the load, and the run as a
whole, leaves pre-existing tile images untouched). -/
theorem manifest_load_tolerance_c8 :
    loadDoc ManifestFile.missing = []
    ∧ loadDoc ManifestFile.malformed = []
    ∧ (∀ (cfg : Cfg) (images : List String),
        runPipeline cfg ⟨images, .malformed⟩ = runPipeline cfg ⟨images, .missing⟩)
    ∧ (∀ (cfg : Cfg) (d : ManifestFile) (images : List String) (n : String),
        n ∈ images → n ∉ (runPipeline cfg ⟨images, d⟩).written) := by
  refine ⟨rfl, rfl, fun cfg images => rfl, ?_⟩
  intro cfg d images n hn
  exact (foldl_written_inv cfg (plannedTiles cfg.width cfg.height cfg.tileSize)
    ⟨loadDoc d, images, []⟩ n hn (by simp)).2

/-- C8 witness: a run over the sample configuration never rewrites the
pre-existing tile image file. -/
theorem manifest_load_tolerance_c8_witness :
    "img.png" ∉ (runPipeline cfg0 ⟨["img.png"], ManifestFile.missing⟩).written :=
  manifest_load_tolerance_c8.2.2.2 cfg0 ManifestFile.missing ["img.png"] "img.png"
    (List.mem_singleton.mpr rfl)

/-! ## C10: the non-positive-window skip branch is unreachable -/

/-- C10. For every configuration with positive raster dimensions and tile
edge, every enumerated tile coordinate (`ty < tiles_y`, `tx < tiles_x`)
has window width and height at least 1, so the branch that skips
non-positive windows is never taken (`posWin` holds) and every enumerated
tile's descriptor reaches the persisted manifest. -/
theorem skip_branch_unreachable_c10 (cfg : Cfg) (ty tx : Nat)
    (hW : 1 ≤ cfg.width) (hH : 1 ≤ cfg.height) (hE : 1 ≤ cfg.tileSize)
    (hty : ty < nTilesY cfg.height cfg.tileSize)
    (htx : tx < nTilesX cfg.width cfg.tileSize) :
    (1 ≤ (windowFor cfg.width cfg.height cfg.tileSize ty tx).width
      ∧ 1 ≤ (windowFor cfg.width cfg.height cfg.tileSize ty tx).height)
    ∧ posWin cfg (ty, tx)
    ∧ (∀ disk : Disk, ∃ e, e ∈ (runPipeline cfg disk).persisted
        ∧ e.filename = tileName cfg ty tx) := by
  have hwin := window_pos hE hty htx
  have hpw : posWin cfg (ty, tx) := by
    show ¬((windowFor cfg.width cfg.height cfg.tileSize ty tx).width ≤ 0
      ∨ (windowFor cfg.width cfg.height cfg.tileSize ty tx).height ≤ 0)
    rintro (hc | hc)
    · omega
    · omega
  refine ⟨hwin, hpw, ?_⟩
  intro disk
  have hM1 : ((plannedTiles cfg.width cfg.height cfg.tileSize).foldl
        (processTile cfg) ⟨loadDoc disk.doc, disk.images, []⟩).manifest
      = upsertAll (loadDoc disk.doc)
          (stepEntries cfg (plannedTiles cfg.width cfg.height cfg.tileSize)) :=
    foldl_manifest cfg _ _
  have hWFload := loadDoc_WF disk.doc
  have hWF1 := WF_upsertAll
    (stepEntries cfg (plannedTiles cfg.width cfg.height cfg.tileSize)) _
    hWFload.1 hWFload.2 (stepEntries_names cfg _)
  have hmem : mkEntry cfg ty tx ∈
      stepEntries cfg (plannedTiles cfg.width cfg.height cfg.tileSize) := by
    unfold stepEntries
    refine List.mem_map.mpr ⟨(ty, tx),
      List.mem_filter.mpr ⟨?_, by simpa using hpw⟩, rfl⟩
    exact mem_plannedTiles.mpr ⟨hty, htx⟩
  have hissome : ((stepEntries cfg
      (plannedTiles cfg.width cfg.height cfg.tileSize)).reverse.find?
        (fun e => decide (e.filename = tileName cfg ty tx))).isSome := by
    rw [List.find?_isSome]
    exact ⟨mkEntry cfg ty tx, List.mem_reverse.mpr hmem,
      by simp [mkEntry_filename]⟩
  obtain ⟨e', he'⟩ := Option.isSome_iff_exists.mp hissome
  have hname : e'.filename = tileName cfg ty tx := by
    have := List.find?_some he'
    simpa using this
  have hlook : lookupM ((plannedTiles cfg.width cfg.height cfg.tileSize).foldl
        (processTile cfg) ⟨loadDoc disk.doc, disk.images, []⟩).manifest
      (tileName cfg ty tx) = some e' := by
    rw [hM1, lookupM_upsertAll]
    unfold findByName
    rw [he']
    rfl
  have hpair := (lookupM_eq_some_iff (by rw [hM1]; exact hWF1.1)).mp hlook
  refine ⟨e', ?_, hname⟩
  exact (persist_perm _).mem_iff.mpr
    (List.mem_map.mpr ⟨(tileName cfg ty tx, e'), hpair, rfl⟩)

/-- C10 witness: the theorem instantiated on the sample 1-by-1
configuration at tile coordinate `(0, 0)`. -/
theorem skip_branch_unreachable_c10_witness :
    (1 ≤ (windowFor cfg0.width cfg0.height cfg0.tileSize 0 0).width
      ∧ 1 ≤ (windowFor cfg0.width cfg0.height cfg0.tileSize 0 0).height)
    ∧ posWin cfg0 (0, 0)
    ∧ (∀ disk : Disk, ∃ e, e ∈ (runPipeline cfg0 disk).persisted
        ∧ e.filename = tileName cfg0 0 0) :=
  skip_branch_unreachable_c10 cfg0 0 0 (by decide) (by decide) (by decide)
    (by decide) (by decide)

/-! ## C9: the manifest document is untouched when a tile raises -/

lemma processTileF_files_mono {cfg : Cfg} {fails : Nat × Nat → Bool}
    {st : PipeState} {t : Nat × Nat} {n : String} (h : n ∈ st.files) :
    (∀ s, processTileF cfg fails st t = .ok s → n ∈ s.files) ∧
    (∀ s, processTileF cfg fails st t = .error s → n ∈ s.files) := by
  by_cases hw : (windowFor cfg.width cfg.height cfg.tileSize t.1 t.2).width ≤ 0
      ∨ (windowFor cfg.width cfg.height cfg.tileSize t.1 t.2).height ≤ 0
  · constructor <;> intro s hs <;> simp only [processTileF, if_pos hw] at hs
    · cases hs; exact h
    · cases hs
  · by_cases hf : tileName cfg t.1 t.2 ∈ st.files
    · constructor <;> intro s hs <;>
        simp only [processTileF, if_neg hw, if_pos hf] at hs
      · cases hs; exact h
      · cases hs
    · by_cases hfail : fails t = true
      · constructor <;> intro s hs <;>
          simp only [processTileF, if_neg hw, if_neg hf, if_pos hfail] at hs
        · cases hs
        · cases hs; exact h
      · constructor <;> intro s hs <;>
          simp only [processTileF, if_neg hw, if_neg hf, if_neg hfail] at hs
        · cases hs; exact List.mem_append_left _ h
        · cases hs

lemma foldTilesF_files_mono (cfg : Cfg) (fails : Nat × Nat → Bool)
    (ts : List (Nat × Nat)) (st : PipeState) (n : String) (h : n ∈ st.files) :
    (∀ s, foldTilesF cfg fails st ts = .ok s → n ∈ s.files) ∧
    (∀ s, foldTilesF cfg fails st ts = .error s → n ∈ s.files) := by
  induction ts generalizing st with
  | nil =>
      constructor <;> intro s hs
      · cases hs; exact h
      · cases hs
  | cons t ts ih =>
      unfold foldTilesF
      cases hstep : processTileF cfg fails st t with
      | error e =>
          constructor <;> intro s hs <;> simp only [hstep] at hs
          · cases hs
          · cases hs
            exact (processTileF_files_mono h).2 _ hstep
      | ok s0 =>
          have hn0 : n ∈ s0.files := (processTileF_files_mono h).1 _ hstep
          constructor <;> intro s hs <;> simp only [hstep] at hs
          · exact (ih s0 hn0).1 s hs
          · exact (ih s0 hn0).2 s hs

/-- C9. Atomicity of the on-disk manifest under per-tile failure: the
pipeline persists the manifest document only once, after the tile loop;
hence whenever reading, classifying, or writing some tile raises (the
fallible tile loop yields an error), the run aborts and the on-disk
manifest document is exactly what it was before the run, while every
pre-existing tile image file is still present. -/
theorem manifest_atomicity_c9 (cfg : Cfg) (disk : Disk)
    (fails : Nat × Nat → Bool)
    (h : (tileFoldF cfg disk fails).isOk = false) :
    (runPipelineF cfg disk fails).doc = disk.doc
    ∧ ∀ n ∈ disk.images, n ∈ (runPipelineF cfg disk fails).images := by
  unfold runPipelineF
  cases hfold : tileFoldF cfg disk fails with
  | ok s =>
      rw [hfold] at h
      simp [Except.isOk, Except.toBool] at h
  | error s =>
      refine ⟨rfl, ?_⟩
      intro n hn
      have := (foldTilesF_files_mono cfg fails
        (plannedTiles cfg.width cfg.height cfg.tileSize)
        ⟨loadDoc disk.doc, disk.images, []⟩ n hn).2 s hfold
      simpa using this

/-- C9 witness: with the sample configuration, an empty disk, and a fault
injected at every tile, the loop raises and the theorem applies. -/
theorem manifest_atomicity_c9_witness :
    (runPipelineF cfg0 disk0 (fun _ => true)).doc = disk0.doc
    ∧ ∀ n ∈ disk0.images, n ∈ (runPipelineF cfg0 disk0 (fun _ => true)).images :=
  manifest_atomicity_c9 cfg0 disk0 (fun _ => true) (by decide)

/-! ## C1: resumability idempotence -/

lemma runPipeline_eq (cfg : Cfg) (disk : Disk) :
    runPipeline cfg disk =
      ⟨((plannedTiles cfg.width cfg.height cfg.tileSize).foldl (processTile cfg)
          ⟨loadDoc disk.doc, disk.images, []⟩).files,
       ((plannedTiles cfg.width cfg.height cfg.tileSize).foldl (processTile cfg)
          ⟨loadDoc disk.doc, disk.images, []⟩).written,
       persistManifest ((plannedTiles cfg.width cfg.height cfg.tileSize).foldl
          (processTile cfg) ⟨loadDoc disk.doc, disk.images, []⟩).manifest⟩ := rfl

/-- C1. Resumability idempotence: running the pipeline a second time on the
disk state left behind by a first run (no files deleted in between)
persists an identical manifest document, writes zero new tile image files,
and leaves the set of image files unchanged; moreover the persisted
manifest does not depend at all on which tile images were already present
(every enumerated tile's descriptor is upserted into the in-memory
manifest even when its image exists and pixel work is skipped). The
hypothesis on the tile edge excludes size 0, on which the Python function
raises `ZeroDivisionError` before any tile work. -/
theorem resumability_idempotence_c1 (cfg : Cfg) (disk : Disk)
    (hE : 1 ≤ cfg.tileSize) :
    (runPipeline cfg (afterRun cfg disk)).persisted
      = (runPipeline cfg disk).persisted
    ∧ (runPipeline cfg (afterRun cfg disk)).written = []
    ∧ (runPipeline cfg (afterRun cfg disk)).files = (runPipeline cfg disk).files
    ∧ (∀ images : List String,
        (runPipeline cfg ⟨images, disk.doc⟩).persisted
          = (runPipeline cfg disk).persisted) := by
  have _ := hE
  set ts := plannedTiles cfg.width cfg.height cfg.tileSize with hts
  set st1 := ts.foldl (processTile cfg) ⟨loadDoc disk.doc, disk.images, []⟩ with hst1
  have hafter : afterRun cfg disk = ⟨st1.files, .doc (persistManifest st1.manifest)⟩ := rfl
  set st2 := ts.foldl (processTile cfg)
    ⟨loadDoc (.doc (persistManifest st1.manifest)), st1.files, []⟩ with hst2
  have hr1 : runPipeline cfg disk =
      ⟨st1.files, st1.written, persistManifest st1.manifest⟩ := rfl
  have hr2 : runPipeline cfg (afterRun cfg disk) =
      ⟨st2.files, st2.written, persistManifest st2.manifest⟩ := rfl
  have hM1 : st1.manifest = upsertAll (loadDoc disk.doc) (stepEntries cfg ts) :=
    foldl_manifest cfg ts _
  have hM2 : st2.manifest =
      upsertAll (loadDoc (.doc (persistManifest st1.manifest)))
        (stepEntries cfg ts) :=
    foldl_manifest cfg ts _
  have hWFl1 := loadDoc_WF disk.doc
  have hWF1 : WFdict st1.manifest ∧ WFkeys st1.manifest := by
    rw [hM1]
    exact WF_upsertAll _ _ hWFl1.1 hWFl1.2 (stepEntries_names cfg ts)
  have hWFl2 := loadDoc_WF (.doc (persistManifest st1.manifest))
  have hWF2 : WFdict st2.manifest ∧ WFkeys st2.manifest := by
    rw [hM2]
    exact WF_upsertAll _ _ hWFl2.1 hWFl2.2 (stepEntries_names cfg ts)
  have hlook : ∀ k, lookupM st2.manifest k = lookupM st1.manifest k := by
    intro k
    rw [hM2, lookupM_upsertAll, lookupM_roundtrip st1.manifest hWF1.1 hWF1.2 k,
      hM1, lookupM_upsertAll]
    cases findByName (stepEntries cfg ts) k <;> simp [Option.or]
  have hpersist : persistManifest st2.manifest = persistManifest st1.manifest :=
    persist_eq_of_lookup_eq hWF2.1 hWF1.1 hlook
  have hcontains : ∀ t ∈ ts, posWin cfg t → tileName cfg t.1 t.2 ∈ st1.files :=
    foldl_files_contains cfg ts _
  have hnowork := foldl_no_work cfg ts
    ⟨loadDoc (.doc (persistManifest st1.manifest)), st1.files, []⟩
    (fun t ht hpw => hcontains t ht hpw)
  refine ⟨by rw [hr1, hr2]; exact hpersist,
    by rw [hr2]; exact hnowork.2,
    by rw [hr1, hr2]; exact hnowork.1, ?_⟩
  intro images
  rw [runPipeline_eq cfg ⟨images, disk.doc⟩, hr1]
  show persistManifest ((ts.foldl (processTile cfg)
      ⟨loadDoc disk.doc, images, []⟩).manifest) = persistManifest st1.manifest
  rw [foldl_manifest, hM1]

/-- C1 witness: the theorem instantiated on the sample configuration and
the empty disk. -/
theorem resumability_idempotence_c1_witness :
    (runPipeline cfg0 (afterRun cfg0 disk0)).persisted
      = (runPipeline cfg0 disk0).persisted
    ∧ (runPipeline cfg0 (afterRun cfg0 disk0)).written = []
    ∧ (runPipeline cfg0 (afterRun cfg0 disk0)).files = (runPipeline cfg0 disk0).files
    ∧ (∀ images : List String,
        (runPipeline cfg0 ⟨images, disk0.doc⟩).persisted
          = (runPipeline cfg0 disk0).persisted) :=
  resumability_idempotence_c1 cfg0 disk0 (by decide)
